import Mathlib

/-!
# Verification of the grimoire local search index and query engine

Shallow embedding of `scripts/build-index.js` and `scripts/search-index.js`:
the registry loader, the index merger, the index cache freshness logic, and
the query engine (tokenizer, scorer, ranker).  JavaScript strings are
modelled as Lean `String`; the registry data handled by these scripts is
ASCII, where JS `toLowerCase`, `\s`, `startsWith` and `includes` agree with
the Lean models below.  JS numbers are modelled as `Int`/`Nat` (all values
involved are integers far below 2^53, so floating point is exact).
-/

namespace Grimoire

/-- Model of JS `String.prototype.toLowerCase` (ASCII range). -/
def strLower (s : String) : String :=
  String.mk (s.data.map Char.toLower)

/-- Model of JS `String.prototype.startsWith`. -/
def jsStartsWith (s t : String) : Bool :=
  t.data.isPrefixOf s.data

/-- Model of JS `String.prototype.includes`: `t` occurs in `s` as a contiguous
substring. -/
def jsIncludes (s t : String) : Bool :=
  s.data.tails.any (fun suffix => t.data.isPrefixOf suffix)

/-- One skill record as it sits in a registry file (`build-index.js` reads it
from the registry's `skills` array).  `description` and `tags` may be absent
(`undefined`), hence `Option`; fields not involved in any claimed behavior
(`source`, `version`, `verified`) are carried by the JS spread unchanged and
are omitted here. -/
structure SkillRec where
  name : String
  description : Option String
  tags : Option (List String)
deriving DecidableEq, Repr

/-- A skill record after loading: `build-index.js` stamps each record with the
name of its owning registry (`{ ...skill, registry: name }`). -/
structure Skill where
  name : String
  description : Option String
  tags : Option (List String)
  registry : String
deriving DecidableEq, Repr

/-- The parsed content of one registry file.  `skills = none` models a file
whose `skills` field is absent or not an array. -/
structure RegFile where
  skills : Option (List SkillRec)
deriving DecidableEq, Repr

/-- Stamp every record of a registry with the registry name
(`{ ...skill, registry: name }` in both the local and the remote loader). -/
def tagSkills (regName : String) (recs : List SkillRec) : List Skill :=
  recs.map (fun r => ⟨r.name, r.description, r.tags, regName⟩)

/-! ## Query engine (`scripts/search-index.js`) -/

/-- One loop iteration of `scoreSkill(skill, terms)` (`search-index.js`
lines 16-53): one cascaded name check (`=== : +100`, else
`startsWith : +60`, else `includes : +40`), one cascaded tag check (exact
member `+30`, else some tag `startsWith : +20`), and an independent
description `includes` check (`+10`). -/
def scoreStep (skill : Skill) (score : Nat) (term : String) : Nat :=
  let name := strLower skill.name
  let desc := strLower (skill.description.getD "")
  let tags := (skill.tags.getD []).map strLower
  let score := score +
    (if name = term then 100
     else if jsStartsWith name term then 60
     else if jsIncludes name term then 40
     else 0)
  let score := score +
    (if tags.contains term then 30
     else if tags.any (fun t => jsStartsWith t term) then 20
     else 0)
  let score := score + (if jsIncludes desc term then 10 else 0)
  score

/-- `scoreSkill` accumulates `scoreStep` over the lower-cased terms starting
from 0.  (The JS code hoists the lower-casings of `name`, `description` and
`tags` out of the loop; they are pure, so inlining them into the step
changes nothing.) -/
def scoreSkill (skill : Skill) (terms : List String) : Nat :=
  (terms.map strLower).foldl (scoreStep skill) 0

/-- Splits a character list into its maximal whitespace-free runs.  Model of
JS `str.split(/\s+/).filter(Boolean)`: splitting on runs of whitespace can
additionally produce empty pieces at the ends, and `filter(Boolean)` drops
exactly those, leaving the maximal non-whitespace runs in order. -/
def splitWsAux : List Char → List Char → List String
  | [], cur => if cur.isEmpty then [] else [String.mk cur.reverse]
  | c :: cs, cur =>
    if c.isWhitespace then
      (if cur.isEmpty then splitWsAux cs [] else String.mk cur.reverse :: splitWsAux cs [])
    else splitWsAux cs (c :: cur)

/-- `query.toLowerCase().split(/\s+/).filter(Boolean)` from `search-index.js`
line 57. -/
def tokenize (query : String) : List String :=
  splitWsAux (strLower query).data []

/-- A result record: JS builds `{ ...skill, score }`. -/
structure ScoredSkill where
  skill : Skill
  score : Nat
deriving DecidableEq, Repr

/-- The sort comparator of `search-index.js` line 69, `(a, b) => b.score -
a.score`, read as the "keep `a` no later than `b`" relation `c(a,b) ≤ 0`.
JS `Array.prototype.sort` is stable (ES2019), so its result is the unique
permutation that is sorted for this relation and keeps ties in input order;
`List.insertionSort` with this relation is stable and computes exactly that
permutation. -/
def scoreRel (a b : ScoredSkill) : Prop :=
  b.score ≤ a.score

instance : DecidableRel scoreRel :=
  fun a b => inferInstanceAs (Decidable (b.score ≤ a.score))

instance : IsTotal ScoredSkill scoreRel :=
  ⟨fun a b => Nat.le_total b.score a.score⟩

instance : IsTrans ScoredSkill scoreRel :=
  ⟨fun _ _ _ hab hbc => Nat.le_trans hbc hab⟩

/-- The index as the query engine consumes it (its `skills` array). -/
structure IndexFile where
  updatedAt : Option Int
  skills : List Skill
deriving DecidableEq, Repr

/-- `searchSkills(index, query, { limit })` from `search-index.js` lines
55-73: tokenize, return `[]` on an empty token set, otherwise score every
record, drop scores `≤ 0`, sort by score descending (stable), and truncate
to `limit` (`slice(0, limit)`). -/
def searchSkills (index : IndexFile) (query : String) (limit : Nat) : List ScoredSkill :=
  let terms := tokenize query
  if terms.isEmpty then []
  else
    (((index.skills.map (fun skill => ScoredSkill.mk skill (scoreSkill skill terms))).filter
        (fun s => 0 < s.score)).insertionSort scoreRel).take limit

/-- `searchSkills` with the default `limit = 10` of `search-index.js` line 56. -/
def searchSkillsDefault (index : IndexFile) (query : String) : List ScoredSkill :=
  searchSkills index query 10

/-! ## Registry loader and index merger (`scripts/build-index.js`) -/

/-- `loadLocalRegistries` (`build-index.js` lines 42-79), restricted to its
`skills` output.  Input: each discovered registry file as
`(registry name, parse result)`, in directory order; `none` models a file
that is unreadable or fails `JSON.parse` (skipped with a logged error).
Every surviving record is stamped with its registry name and the per-file
record lists are concatenated — there is no deduplication here. -/
def loadLocalRegistries (files : List (String × Option RegFile)) : List Skill :=
  files.foldl (fun acc f =>
    match f.2 with
    | none => acc
    | some reg =>
      match reg.skills with
      | none => acc
      | some recs => acc ++ tagSkills f.1 recs) []

/-- The `skills` list produced by `fetchRemoteRegistry` (`build-index.js`
lines 81-98) for one successfully fetched and parsed remote source:
`(data.skills || []).map(s => ({ ...s, registry: name }))`. -/
def remoteSkills (regName : String) (reg : RegFile) : List Skill :=
  tagSkills regName (reg.skills.getD [])

/-- One iteration of the remote-merge loop (`build-index.js` lines 156-164):
`existingNames` is the set of names already present, computed once before
the inner loop, and a remote record is appended only when its name is not
in that set.  `Set.has` is membership, modelled on the name list. -/
def mergeRemote (acc : List Skill) (rem : List Skill) : List Skill :=
  let existingNames := acc.map (fun s => s.name)
  acc ++ rem.filter (fun s => !(decide (s.name ∈ existingNames)))

/-- The remote-merge fold of `buildIndex` (`build-index.js` lines 153-165):
start from the local skills and fold the remote sources in configuration
order.  A source whose fetch or parse failed (`none`) is skipped. -/
def mergeAll (locals : List Skill) (remotes : List (String × Option RegFile)) : List Skill :=
  remotes.foldl (fun acc r =>
    match r.2 with
    | none => acc
    | some reg => mergeRemote acc (remoteSkills r.1 reg)) locals

/-- Does remote source `r` (as configured: name plus fetch result) carry a
record named `n`?  A failed source carries nothing. -/
def srcHasName (n : String) (r : String × Option RegFile) : Bool :=
  match r.2 with
  | some reg => (remoteSkills r.1 reg).any (fun s => decide (s.name = n))
  | none => false

/-- The records named `n` of remote source `r`. -/
def srcSkillsNamed (n : String) (r : String × Option RegFile) : List Skill :=
  match r.2 with
  | some reg => (remoteSkills r.1 reg).filter (fun s => decide (s.name = n))
  | none => []

/-! ### The name sort

`build-index.js` line 168 sorts with `a.name.localeCompare(b.name)`.
`localeCompare` under Node's default (root) locale is the ICU root
collation, not code-unit comparison.  For the ASCII letters, digits and
hyphens occurring in skill names it compares in two passes: a primary pass
on the case-folded strings (where hyphen < digits < letters, matching the
code-unit order of the folded characters), and, when the primary keys tie,
a tertiary pass ordering lowercase before uppercase at the first
difference.  The collation key below realizes exactly that: the primary
weights (shifted by one) followed by a separator `0` (smaller than every
primary weight, so a proper primary prefix sorts first) and the case
weights. -/

/-- ICU root collation key for an ASCII string (see above). -/
def collKey (s : String) : List Nat :=
  s.data.map (fun c => c.toLower.toNat + 1) ++
    0 :: s.data.map (fun c => if c.isUpper then 2 else 1)

/-- Model of JS `a.localeCompare(b)` (Node default locale, ASCII letters,
digits and hyphens): `-1`, `1` or `0` by lexicographic comparison of the
collation keys. -/
def localeCompare (a b : String) : Int :=
  if collKey a < collKey b then -1
  else if collKey b < collKey a then 1
  else 0

/-- `localeCompare a b ≤ 0` is comparison of the collation keys. -/
theorem localeCompare_nonpos_iff {a b : String} :
    localeCompare a b ≤ 0 ↔ collKey a ≤ collKey b := by
  unfold localeCompare
  by_cases h₁ : collKey a < collKey b
  · simp [h₁, le_of_lt h₁]
  · by_cases h₂ : collKey b < collKey a
    · simp only [h₁, h₂, if_false, if_true]
      constructor
      · intro h
        exact absurd h (by norm_num)
      · intro h
        exact absurd h₂ (not_lt_of_le h)
    · simp only [h₁, h₂, if_false]
      simp [le_of_not_lt h₂]

/-- The sort relation of `build-index.js` line 168 read as "keep `a` no
later than `b`": comparator value `≤ 0`.  As with `scoreRel`, JS
`Array.prototype.sort` is stable and `List.insertionSort` with this
relation computes its result. -/
def nameRel (a b : Skill) : Prop :=
  localeCompare a.name b.name ≤ 0

instance : DecidableRel nameRel :=
  fun a b => inferInstanceAs (Decidable (localeCompare a.name b.name ≤ 0))

instance : IsTotal Skill nameRel :=
  ⟨fun a b => by
    unfold nameRel
    rw [localeCompare_nonpos_iff, localeCompare_nonpos_iff]
    exact le_total _ _⟩

instance : IsTrans Skill nameRel :=
  ⟨fun a b c hab hbc => by
    unfold nameRel at *
    rw [localeCompare_nonpos_iff] at *
    exact le_trans hab hbc⟩

/-- `local.skills.sort((a, b) => a.name.localeCompare(b.name))`
(`build-index.js` line 168). -/
def sortSkills (l : List Skill) : List Skill :=
  l.insertionSort nameRel

/-- The full `skills` pipeline of `buildIndex` (`build-index.js` lines
142-176): load the local registries, fold in the remote sources, sort by
name. -/
def buildSkills (files : List (String × Option RegFile))
    (remotes : List (String × Option RegFile)) : List Skill :=
  sortSkills (mergeAll (loadLocalRegistries files) remotes)

/-! ## Index cache (`scripts/build-index.js` lines 100-137)

The cache file `~/.grimoire/index.json` is modelled by what the two reads
in `isIndexFresh` and `loadExistingIndex` can observe.  Timestamps are
milliseconds since the epoch (`Int`); a malformed `updated_at` makes
`new Date(...)` an Invalid Date, modelled by `updatedAt = none`. -/

/-- Observable state of the cache file. -/
inductive CacheFile where
  /-- `fs.existsSync` is false. -/
  | missing
  /-- `fs.readFileSync` throws. -/
  | unreadable
  /-- `JSON.parse` throws. -/
  | malformedJson
  /-- `JSON.parse` succeeds with this content. -/
  | parsed (idx : IndexFile)
deriving DecidableEq, Repr

/-- `TTL_HOURS = 24` (`build-index.js` line 20), in milliseconds. -/
def ttlMs : Int := 24 * 3600000

/-- `isIndexFresh` (`build-index.js` lines 100-115).  Missing file: false;
read or parse exception: caught, false; Invalid Date: the NaN comparison
`hoursSinceUpdate < TTL_HOURS` is false.  Otherwise
`(now - updatedAt) / 3600000 < 24`; dividing by the positive constant and
comparing against the exactly-representable bound `24` is equivalent to the
millisecond comparison used here, also in float64. -/
def isIndexFresh (now : Int) : CacheFile → Bool
  | .parsed idx =>
    match idx.updatedAt with
    | some t => decide (now - t < ttlMs)
    | none => false
  | _ => false

/-- `loadExistingIndex` (`build-index.js` lines 117-127): the parsed cache
contents, or `none` when the file is missing or reading/parsing throws. -/
def loadExistingIndex : CacheFile → Option IndexFile
  | .parsed idx => some idx
  | _ => none

/-- The index written by a forced (or stale-cache) build: the merged skills
with `updated_at` stamped `new Date().toISOString()` — i.e. `now`. -/
def buildPipeline (now : Int) (files remotes : List (String × Option RegFile)) : IndexFile :=
  ⟨some now, buildSkills files remotes⟩

/-- `buildIndex({ force })` (`build-index.js` lines 129-193) as one step on
the cache file: when `!force` and the cache is fresh it returns
`loadExistingIndex()` (possibly `null`) and leaves the file alone;
otherwise it rebuilds, writes the new index to the file, and returns it. -/
def buildIndexRun (files remotes : List (String × Option RegFile)) (now : Int)
    (st : CacheFile) (force : Bool) : Option IndexFile × CacheFile :=
  if !force && isIndexFresh now st then (loadExistingIndex st, st)
  else
    let idx := buildPipeline now files remotes
    (some idx, CacheFile.parsed idx)

/-! ## Search orchestrator (`scripts/search-index.js` lines 109-134)

`search` makes several independent reads of the shared cache file
(`isIndexFresh()`, `loadExistingIndex()`, and the reads inside
`buildIndex`); nothing pins the file between them, so each read may observe
its own state.  `searchGetIndex` exposes one state per read;
`searchRun` is the same orchestrator threaded over a single mutable state
(no concurrent modification), including the write performed by a rebuild
and the final `fromCache` read. -/

/-- The index-acquisition step of `search` (`search-index.js` lines
116-123), with one cache-file state per filesystem read: `st1` for the
`isIndexFresh()` of the trigger condition, `st2` for `loadExistingIndex()`,
`st3` for the reads inside the `buildIndex` call (if any). -/
def searchGetIndex (files remotes : List (String × Option RegFile)) (now : Int)
    (rebuild online : Bool) (st1 st2 st3 : CacheFile) : Option IndexFile :=
  if rebuild || online || !(isIndexFresh now st1) then
    (buildIndexRun files remotes now st3 (rebuild || online)).1
  else
    match loadExistingIndex st2 with
    | some i => some i
    | none => (buildIndexRun files remotes now st3 false).1

/-- `search(query, { rebuild, online, limit })` (`search-index.js` lines
109-134) threaded over a single cache-file state: result of the query
(`none` models the `TypeError` crash on a `null` index), the final file
state, and the `fromCache` flag — which is computed by a *fresh*
`isIndexFresh()` call after the index was obtained (line 132), i.e. against
the possibly-rewritten file. -/
def searchRun (files remotes : List (String × Option RegFile)) (now : Int)
    (st : CacheFile) (rebuild online : Bool) (query : String) (limit : Nat) :
    Option (List ScoredSkill) × CacheFile × Bool :=
  let step :=
    if rebuild || online || !(isIndexFresh now st) then
      buildIndexRun files remotes now st (rebuild || online)
    else
      match loadExistingIndex st with
      | some i => (some i, st)
      | none => buildIndexRun files remotes now st false
  (step.1.map (fun i => searchSkills i query limit),
    step.2,
    !rebuild && !online && isIndexFresh now step.2)

/-! ## Network fetch (`scripts/build-index.js` lines 22-40)

`fetchUrl` follows 301/302 redirects by calling `get(res.headers.location)`
recursively, with no redirect counter.  The recursion is modelled with
fuel: `fetchUrlRun env fuel url` performs at most `fuel` HTTP requests
against the server behavior `env`; `none` means the promise has not settled
after `fuel` requests.  `fetchUrlRun env fuel url = none` for *every*
`fuel` therefore means the promise never settles. -/

/-- Server behavior for one request. -/
inductive HttpResponse where
  /-- Status 301 or 302 with this `Location` header. -/
  | redirect (location : String)
  /-- Status 200 with this body. -/
  | success (body : String)
  /-- Any other status code: the promise is rejected. -/
  | failure (statusCode : Nat)
deriving DecidableEq, Repr

/-- The `get` recursion of `fetchUrl`, bounded by fuel (number of requests
issued).  `some (.ok body)` models `resolve(data)`, `some (.error c)`
models `reject(new Error(...))`. -/
def fetchUrlRun (env : String → HttpResponse) : Nat → String → Option (Except Nat String)
  | 0, _ => none
  | fuel + 1, url =>
    match env url with
    | .redirect location => fetchUrlRun env fuel location
    | .success body => some (.ok body)
    | .failure statusCode => some (.error statusCode)

/-! ## Theorems -/

/-- The per-token score exactly as the specification words it: +100/+60/+40
for the name cascade, independently +30/+20 for the tag cascade,
independently +10 for a description substring hit. -/
def tokenScore (skill : Skill) (term : String) : Nat :=
  let name := strLower skill.name
  let desc := strLower (skill.description.getD "")
  let tags := (skill.tags.getD []).map strLower
  (if name = term then 100
   else if jsStartsWith name term then 60
   else if jsIncludes name term then 40
   else 0) +
  ((if tags.contains term then 30
    else if tags.any (fun t => jsStartsWith t term) then 20
    else 0) +
   (if jsIncludes desc term then 10 else 0))

theorem scoreStep_eq_add_tokenScore (skill : Skill) (score : Nat) (term : String) :
    scoreStep skill score term = score + tokenScore skill term := by
  simp only [scoreStep, tokenScore]
  omega

theorem foldl_scoreStep (skill : Skill) (ts : List String) :
    ∀ n : Nat, ts.foldl (scoreStep skill) n = n + (ts.map (tokenScore skill)).sum := by
  induction ts with
  | nil => simp
  | cons t ts ih =>
    intro n
    simp only [List.foldl_cons, List.map_cons, List.sum_cons,
      scoreStep_eq_add_tokenScore, ih]
    omega

/-- C1: for every skill record and every tokenized query, the score is the
sum over tokens of the per-token contribution: exactly +100 if the
lower-cased name equals the token, else +60 if the name starts with the
token, else +40 if the name contains the token (at most one of these per
token); independently +30 if some tag equals the token, else +20 if some
tag starts with the token; and independently +10 if the lower-cased
description contains the token.  In particular the single token `"docker"`
against a record named `"docker-compose"` with no tags and no description
scores exactly 60. -/
theorem scoreSkill_is_tokenScore_sum :
    (∀ (skill : Skill) (terms : List String),
      scoreSkill skill terms = ((terms.map strLower).map (tokenScore skill)).sum)
    ∧ scoreSkill ⟨"docker-compose", none, none, "local"⟩ ["docker"] = 60 := by
  constructor
  · intro skill terms
    simpa [scoreSkill] using foldl_scoreStep skill (terms.map strLower) 0
  · decide

theorem splitWsAux_of_all_ws :
    ∀ cs : List Char, (∀ c ∈ cs, c.isWhitespace) → splitWsAux cs [] = [] := by
  intro cs
  induction cs with
  | nil => intro _; rfl
  | cons c cs ih =>
    intro h
    have hc : c.isWhitespace := h c (List.mem_cons_self c cs)
    simp only [splitWsAux, hc, if_true, List.isEmpty_nil]
    exact ih (fun d hd => h d (List.mem_cons_of_mem c hd))

theorem isWhitespace_toLower {c : Char} (h : c.isWhitespace) :
    c.toLower.isWhitespace := by
  have : c = ' ' ∨ c = '\t' ∨ c = '\r' ∨ c = '\n' := by
    simpa [Char.isWhitespace, or_assoc] using h
  rcases this with h' | h' | h' | h' <;> subst h' <;> decide

theorem tokenize_of_all_ws (q : String) (h : ∀ c ∈ q.data, c.isWhitespace) :
    tokenize q = [] := by
  unfold tokenize
  apply splitWsAux_of_all_ws
  intro c hc
  simp only [strLower, String.mk] at hc
  rcases List.mem_map.mp hc with ⟨d, hd, rfl⟩
  exact isWhitespace_toLower (h d hd)

/-- C5: for every index and limit, a query consisting only of whitespace
(including the empty string) tokenizes to an empty token set, and
`searchSkills` returns the empty result list rather than an error. -/
theorem searchSkills_whitespace_query (index : IndexFile) (q : String) (limit : Nat)
    (h : ∀ c ∈ q.data, c.isWhitespace) :
    tokenize q = [] ∧ searchSkills index q limit = [] := by
  have ht := tokenize_of_all_ws q h
  refine ⟨ht, ?_⟩
  simp [searchSkills, ht]

theorem searchSkills_whitespace_query_witness :
    tokenize "  " = [] ∧ searchSkills ⟨none, []⟩ "  " 10 = [] :=
  searchSkills_whitespace_query ⟨none, []⟩ "  " 10 (by decide)

/-- C4: `isIndexFresh` returns false when the cache file is missing,
unreadable, or has malformed JSON or a malformed timestamp; on a valid
timestamp it returns true iff `now - updated_at` is strictly below the
24-hour time-to-live.  `loadExistingIndex` returns the parsed index on
success and `none` (not an exception) on any read or parse failure.  An
index aged 23h59m is fresh; one aged 24h01m is stale. -/
theorem cache_freshness_policy :
    (∀ now : Int,
      isIndexFresh now .missing = false
      ∧ isIndexFresh now .unreadable = false
      ∧ isIndexFresh now .malformedJson = false)
    ∧ (∀ (now : Int) (skills : List Skill),
        isIndexFresh now (.parsed ⟨none, skills⟩) = false)
    ∧ (∀ (now t : Int) (skills : List Skill),
        isIndexFresh now (.parsed ⟨some t, skills⟩) = decide (now - t < ttlMs))
    ∧ loadExistingIndex .missing = none
    ∧ loadExistingIndex .unreadable = none
    ∧ loadExistingIndex .malformedJson = none
    ∧ (∀ idx : IndexFile, loadExistingIndex (.parsed idx) = some idx)
    ∧ (∀ (now : Int) (skills : List Skill),
        isIndexFresh now (.parsed ⟨some (now - (23 * 3600000 + 59 * 60000)), skills⟩) = true)
    ∧ (∀ (now : Int) (skills : List Skill),
        isIndexFresh now (.parsed ⟨some (now - (24 * 3600000 + 60000)), skills⟩) = false) := by
  refine ⟨fun now => ⟨rfl, rfl, rfl⟩, fun now skills => rfl, fun now t skills => rfl,
    rfl, rfl, rfl, fun idx => rfl, ?_, ?_⟩
  · intro now skills
    simp only [isIndexFresh, ttlMs, decide_eq_true_eq]
    omega
  · intro now skills
    simp only [isIndexFresh, ttlMs]
    rw [decide_eq_false_iff_not]
    omega

/-- C8: the redirect handling of `fetchUrl` has *no* bound.  On a server
whose every answer is a 301 redirect back to `"a"`, the recursion has not
settled after `fuel` requests, for every `fuel`: the promise neither
resolves nor rejects, contradicting the claim that a fixed finite bound
makes the fetch terminate on every redirect chain. -/
theorem fetchUrl_never_settles_on_cycle :
    ∀ fuel : Nat, fetchUrlRun (fun _ => .redirect "a") fuel "a" = none := by
  intro fuel
  induction fuel with
  | zero => rfl
  | succ n ih => simpa [fetchUrlRun] using ih

/-- C9: the orchestrator `search` rebuilds exactly when a force-refresh is
requested, online mode is requested, or the cache is not fresh; otherwise
it reuses the loaded cache; and when reuse is chosen but the load comes
back absent it falls back to a full rebuild (the inner `buildIndex` sees
the cache gone and rebuilds) instead of failing.  Each filesystem read may
observe its own state of the shared cache file (`st1`, `st2`, `st3`). -/
theorem search_rebuild_trigger_policy (files remotes : List (String × Option RegFile))
    (now : Int) (rebuild online : Bool) (st1 st2 st3 : CacheFile) :
    ((rebuild || online) = true →
      searchGetIndex files remotes now rebuild online st1 st2 st3
        = some (buildPipeline now files remotes))
    ∧ (rebuild = false → online = false → isIndexFresh now st1 = false → st3 = st1 →
      searchGetIndex files remotes now rebuild online st1 st2 st3
        = some (buildPipeline now files remotes))
    ∧ (rebuild = false → online = false → isIndexFresh now st1 = true →
      ∀ i : IndexFile, loadExistingIndex st2 = some i →
      searchGetIndex files remotes now rebuild online st1 st2 st3 = some i)
    ∧ (rebuild = false → online = false → isIndexFresh now st1 = true →
      loadExistingIndex st2 = none → isIndexFresh now st3 = false →
      searchGetIndex files remotes now rebuild online st1 st2 st3
        = some (buildPipeline now files remotes)) := by
  refine ⟨?_, ?_, ?_, ?_⟩
  · intro hforce
    simp [searchGetIndex, hforce, buildIndexRun]
  · intro hr ho hstale hst
    subst hr ho hst
    simp [searchGetIndex, hstale, buildIndexRun]
  · intro hr ho hfresh i hload
    subst hr ho
    simp [searchGetIndex, hfresh, hload]
  · intro hr ho hfresh hload hstale3
    subst hr ho
    simp [searchGetIndex, hfresh, hload, buildIndexRun, hstale3]

theorem search_rebuild_trigger_policy_witness :
    searchGetIndex [] [] 0 true false .missing .missing .missing
        = some (buildPipeline 0 [] [])
    ∧ searchGetIndex [] [] 0 false false .missing .missing .missing
        = some (buildPipeline 0 [] [])
    ∧ searchGetIndex [] [] 0 false false (.parsed ⟨some 0, []⟩) (.parsed ⟨some 0, []⟩) .missing
        = some ⟨some 0, []⟩
    ∧ searchGetIndex [] [] 0 false false (.parsed ⟨some 0, []⟩) .missing .missing
        = some (buildPipeline 0 [] []) :=
  ⟨(search_rebuild_trigger_policy [] [] 0 true false .missing .missing .missing).1 rfl,
   (search_rebuild_trigger_policy [] [] 0 false false .missing .missing .missing).2.1
     rfl rfl rfl rfl,
   (search_rebuild_trigger_policy [] [] 0 false false
       (.parsed ⟨some 0, []⟩) (.parsed ⟨some 0, []⟩) .missing).2.2.1
     rfl rfl (by decide) ⟨some 0, []⟩ rfl,
   (search_rebuild_trigger_policy [] [] 0 false false
       (.parsed ⟨some 0, []⟩) .missing .missing).2.2.2
     rfl rfl (by decide) rfl rfl⟩

/-- C10: a `search` call with `rebuild = false` and `online = false` on a
stale cache rebuilds the index during the call, yet reports
`fromCache = true`: the flag re-evaluates `isIndexFresh()` *after* the
rebuild has rewritten the cache file (with `updated_at = now`), instead of
reporting whether this invocation used the cached index. -/
theorem search_fromCache_true_after_stale_rebuild
    (files remotes : List (String × Option RegFile)) (now : Int) (st : CacheFile)
    (q : String) (limit : Nat) (hstale : isIndexFresh now st = false) :
    (searchRun files remotes now st false false q limit).1
      = some (searchSkills (buildPipeline now files remotes) q limit)
    ∧ (searchRun files remotes now st false false q limit).2.2 = true := by
  have hfresh : isIndexFresh now (CacheFile.parsed (buildPipeline now files remotes)) = true := by
    simp only [buildPipeline, isIndexFresh, ttlMs, decide_eq_true_eq]
    omega
  constructor
  · simp [searchRun, hstale, buildIndexRun]
  · simp [searchRun, hstale, buildIndexRun, hfresh]

theorem search_fromCache_witness :
    (searchRun [] [] 0 .missing false false "docker" 10).1
      = some (searchSkills (buildPipeline 0 [] []) "docker" 10)
    ∧ (searchRun [] [] 0 .missing false false "docker" 10).2.2 = true :=
  search_fromCache_true_after_stale_rebuild [] [] 0 .missing "docker" 10 rfl

/-! ### Merge lemmas -/

theorem mergeAll_cons (acc : List Skill) (r : String × Option RegFile)
    (rs : List (String × Option RegFile)) :
    mergeAll acc (r :: rs)
      = mergeAll (match r.2 with
          | none => acc
          | some reg => mergeRemote acc (remoteSkills r.1 reg)) rs := rfl

/-- Once a name is present in the accumulator, later remote sources add no
record with that name: the merged records of that name are exactly the
accumulator's. -/
theorem mergeAll_filter_of_mem (n : String) :
    ∀ (rs : List (String × Option RegFile)) (acc : List Skill),
      n ∈ acc.map (fun s => s.name) →
      (mergeAll acc rs).filter (fun s => decide (s.name = n))
        = acc.filter (fun s => decide (s.name = n)) := by
  intro rs
  induction rs with
  | nil => intro acc _; rfl
  | cons r rs ih =>
    intro acc h
    rw [mergeAll_cons]
    match hr : r.2 with
    | none => exact ih acc h
    | some reg =>
      have hmem : n ∈ (mergeRemote acc (remoteSkills r.1 reg)).map (fun s => s.name) := by
        simp only [mergeRemote, List.map_append, List.mem_append]
        exact Or.inl h
      rw [ih _ hmem]
      simp only [mergeRemote, List.filter_append, List.filter_filter]
      have hnil : (remoteSkills r.1 reg).filter
          (fun a => decide (a.name = n) && !decide (a.name ∈ acc.map (fun s => s.name)))
          = [] := by
        rw [List.filter_eq_nil_iff]
        intro a _
        by_cases hn : a.name = n
        · simp [hn, h]
        · simp [hn]
      rw [hnil, List.append_nil]

/-- While a name is absent from the accumulator, the merged records of that
name are exactly those of the first remote source that carries it. -/
theorem mergeAll_filter_of_not_mem (n : String) :
    ∀ (rs : List (String × Option RegFile)) (acc : List Skill),
      n ∉ acc.map (fun s => s.name) →
      (mergeAll acc rs).filter (fun s => decide (s.name = n))
        = (match rs.find? (srcHasName n) with
           | some r => srcSkillsNamed n r
           | none => []) := by
  intro rs
  induction rs with
  | nil =>
    intro acc h
    simp only [mergeAll, List.foldl_nil, List.find?_nil]
    rw [List.filter_eq_nil_iff]
    intro a ha
    simp only [decide_eq_true_eq]
    intro hn
    exact h (List.mem_map.mpr ⟨a, ha, hn⟩)
  | cons r rs ih =>
    intro acc h
    rw [mergeAll_cons]
    match hr : r.2 with
    | none =>
      have hhas : srcHasName n r = false := by simp [srcHasName, hr]
      rw [List.find?_cons_of_neg _ (by simp [hhas]), ih acc h]
    | some reg =>
      by_cases hany : (remoteSkills r.1 reg).any (fun s => decide (s.name = n))
      · -- first source carrying `n`: its records named `n` all survive
        have hhas : srcHasName n r = true := by simp [srcHasName, hr, hany]
        rw [List.find?_cons_of_pos _ hhas]
        rcases List.any_eq_true.mp hany with ⟨w, hw, hwn⟩
        have hwn' : w.name = n := of_decide_eq_true hwn
        have hmem : n ∈ (mergeRemote acc (remoteSkills r.1 reg)).map (fun s => s.name) := by
          simp only [mergeRemote, List.map_append, List.mem_append, List.mem_map]
          refine Or.inr ⟨w, ?_, hwn'⟩
          rw [List.mem_filter]
          refine ⟨hw, ?_⟩
          rw [hwn']
          simpa using h
        rw [mergeAll_filter_of_mem n rs _ hmem]
        simp only [mergeRemote, List.filter_append, List.filter_filter]
        have hacc : acc.filter (fun s => decide (s.name = n)) = [] := by
          rw [List.filter_eq_nil_iff]
          intro a ha
          simp only [decide_eq_true_eq]
          intro hn
          exact h (List.mem_map.mpr ⟨a, ha, hn⟩)
        rw [hacc, List.nil_append, srcSkillsNamed, hr]
        apply List.filter_congr
        intro a _
        by_cases hn : a.name = n
        · simp only [hn, decide_True, Bool.true_and]
          simp only [Bool.not_eq_true', decide_eq_false_iff_not]
          simpa [hn] using h
        · simp [hn]
      · -- source without `n`: skipped by `find?`, accumulator gains no `n`
        have hhas : srcHasName n r = false := by
          simp only [srcHasName, hr]
          exact Bool.not_eq_true _ ▸ (by simpa using hany)
        rw [List.find?_cons_of_neg _ (by simp [hhas])]
        apply ih
        simp only [mergeRemote, List.map_append, List.mem_append, List.mem_map]
        rintro (⟨a, ha, hn⟩ | ⟨a, ha, hn⟩)
        · exact h (List.mem_map.mpr ⟨a, ha, hn⟩)
        · rcases List.mem_filter.mp ha with ⟨ha', _⟩
          rw [List.any_eq_true] at hany
          exact hany ⟨a, ha', by simp [hn]⟩

/-- C3: when a local registry and a remote registry both carry a name, the
merge keeps exactly the local records of that name (descriptions included)
and adds no remote one; when no local source carries the name, the merge's
records of that name are exactly those of the *first* remote source
carrying it — later sources add nothing.  The final sorted `skills` list is
a permutation of the merged list. -/
theorem merge_precedence_local_then_first_remote
    (files remotes : List (String × Option RegFile)) (n : String) :
    (n ∈ (loadLocalRegistries files).map (fun s => s.name) →
      (mergeAll (loadLocalRegistries files) remotes).filter (fun s => decide (s.name = n))
        = (loadLocalRegistries files).filter (fun s => decide (s.name = n)))
    ∧ (n ∉ (loadLocalRegistries files).map (fun s => s.name) →
      (mergeAll (loadLocalRegistries files) remotes).filter (fun s => decide (s.name = n))
        = (match remotes.find? (srcHasName n) with
           | some r => srcSkillsNamed n r
           | none => []))
    ∧ (buildSkills files remotes).Perm (mergeAll (loadLocalRegistries files) remotes) := by
  refine ⟨fun h => mergeAll_filter_of_mem n remotes _ h,
    fun h => mergeAll_filter_of_not_mem n remotes _ h,
    List.perm_insertionSort nameRel _⟩

theorem merge_precedence_witness :
    (mergeAll
        (loadLocalRegistries [("loc", some ⟨some [⟨"x", some "local text", none⟩]⟩)])
        [("rem", some ⟨some [⟨"x", some "remote text", none⟩]⟩)]).filter
        (fun s => decide (s.name = "x"))
      = (loadLocalRegistries [("loc", some ⟨some [⟨"x", some "local text", none⟩]⟩)]).filter
        (fun s => decide (s.name = "x"))
    ∧ (mergeAll
        (loadLocalRegistries [])
        [("r1", some ⟨some [⟨"y", some "first", none⟩]⟩),
         ("r2", some ⟨some [⟨"y", some "second", none⟩]⟩)]).filter
        (fun s => decide (s.name = "y"))
      = (match  [("r1", some (RegFile.mk (some [⟨"y", some "first", none⟩]))),
          ("r2", some (RegFile.mk (some [⟨"y", some "second", none⟩])))].find?
            (srcHasName "y") with
         | some r => srcSkillsNamed "y" r
         | none => []) :=
  ⟨(merge_precedence_local_then_first_remote
      [("loc", some ⟨some [⟨"x", some "local text", none⟩]⟩)]
      [("rem", some ⟨some [⟨"x", some "remote text", none⟩]⟩)] "x").1 (by decide),
   (merge_precedence_local_then_first_remote []
      [("r1", some ⟨some [⟨"y", some "first", none⟩]⟩),
       ("r2", some ⟨some [⟨"y", some "second", none⟩]⟩)] "y").2.1 (by decide)⟩

/-- C2 as stated is false: the loader concatenates local registries without
deduplication, and the remote dedup set is computed before a source's inner
loop, so a single remote source's internal duplicates all pass.  Two local
registries each carrying `"x"` yield two records named `"x"` in the built
index, and one remote source carrying `"x"` twice (with no locals) does
too. -/
theorem merged_names_nodup_counterexample :
    ¬ (((buildSkills
          [("r1", some ⟨some [⟨"x", none, none⟩]⟩),
           ("r2", some ⟨some [⟨"x", none, none⟩]⟩)] []).map (fun s => s.name)).Nodup)
    ∧ ¬ (((buildSkills []
          [("rem", some ⟨some [⟨"x", none, none⟩, ⟨"x", none, none⟩]⟩)]).map
            (fun s => s.name)).Nodup) := by
  constructor
  · decide
  · decide

/-- The remote fold preserves name-distinctness: each appended batch is
internally duplicate-free and avoids every name already accumulated. -/
theorem mergeAll_names_nodup :
    ∀ (rs : List (String × Option RegFile)) (acc : List Skill),
      (acc.map (fun s => s.name)).Nodup →
      (∀ r ∈ rs, ∀ reg : RegFile, r.2 = some reg →
        ((remoteSkills r.1 reg).map (fun s => s.name)).Nodup) →
      ((mergeAll acc rs).map (fun s => s.name)).Nodup := by
  intro rs
  induction rs with
  | nil => intro acc hacc _; exact hacc
  | cons r rs ih =>
    intro acc hacc hsrc
    rw [mergeAll_cons]
    match hr : r.2 with
    | none =>
      exact ih acc hacc (fun r' hr' => hsrc r' (List.mem_cons_of_mem r hr'))
    | some reg =>
      refine ih _ ?_ (fun r' hr' => hsrc r' (List.mem_cons_of_mem r hr'))
      simp only [mergeRemote, List.map_append]
      refine List.Nodup.append hacc ?_ ?_
      · have hsub : List.Sublist
            (((remoteSkills r.1 reg).filter
              (fun s => !decide (s.name ∈ acc.map (fun s => s.name)))).map (fun s => s.name))
            ((remoteSkills r.1 reg).map (fun s => s.name)) :=
          List.Sublist.map _ (List.filter_sublist _)
        exact List.Nodup.sublist hsub (hsrc r (List.mem_cons_self r rs) reg hr)
      · intro a ha hb
        rcases List.mem_map.mp hb with ⟨s, hs, rfl⟩
        rcases List.mem_filter.mp hs with ⟨_, hkeep⟩
        rw [Bool.not_eq_true', decide_eq_false_iff_not] at hkeep
        exact hkeep ha

/-- C2 amended: the built index has at most one record per name *provided*
the concatenated local registries already have pairwise-distinct names and
every remote source is internally duplicate-free; the dedup rule only
guards one source against the sources merged before it. -/
theorem merged_names_nodup_of_sources_nodup
    (files remotes : List (String × Option RegFile))
    (hlocal : (((loadLocalRegistries files)).map (fun s => s.name)).Nodup)
    (hremote : ∀ r ∈ remotes, ∀ reg : RegFile, r.2 = some reg →
      ((remoteSkills r.1 reg).map (fun s => s.name)).Nodup) :
    ((buildSkills files remotes).map (fun s => s.name)).Nodup := by
  have hperm : ((buildSkills files remotes).map (fun s => s.name)).Perm
      ((mergeAll (loadLocalRegistries files) remotes).map (fun s => s.name)) :=
    (List.perm_insertionSort nameRel _).map _
  exact hperm.nodup_iff.mpr (mergeAll_names_nodup remotes _ hlocal hremote)

theorem merged_names_nodup_witness :
    ((buildSkills [("r1", some ⟨some [⟨"b", none, none⟩, ⟨"a", none, none⟩]⟩)]
        [("rem", some ⟨some [⟨"a", none, none⟩, ⟨"c", none, none⟩]⟩)]).map
        (fun s => s.name)).Nodup :=
  merged_names_nodup_of_sources_nodup
    [("r1", some ⟨some [⟨"b", none, none⟩, ⟨"a", none, none⟩]⟩)]
    [("rem", some ⟨some [⟨"a", none, none⟩, ⟨"c", none, none⟩]⟩)]
    (by decide) (by decide)

/-- Plain character-code lexicographic comparison of strings, the order the
claim asserts for the final `skills` list. -/
def codeUnitLe (a b : String) : Prop :=
  a.data.map Char.toNat ≤ b.data.map Char.toNat

instance : DecidableRel codeUnitLe :=
  fun a b => inferInstanceAs (Decidable (a.data.map Char.toNat ≤ b.data.map Char.toNat))

/-- C7 as stated is false: the sort uses `localeCompare`, which under the
default locale orders case-insensitively first (`"a"` before `"B"`), not by
character code (`"B"` before `"a"`).  A registry carrying names `"B"` and
`"a"` yields an index whose names are not in plain character-code ascending
order. -/
theorem sorted_by_codeunit_counterexample :
    ¬ (((buildSkills [("r1", some ⟨some [⟨"B", none, none⟩, ⟨"a", none, none⟩]⟩)] []).map
        (fun s => s.name)).Pairwise codeUnitLe) := by
  decide

/-- C7 amended: for every set of loaded registry contents — regardless of
the order sources were loaded — the built index's names are in ascending
order for the locale-aware `localeCompare` comparison used by the code
(which coincides with character-code order only on names that are
case-uniform, e.g. all-lowercase alphanumerics). -/
theorem buildSkills_sorted_by_localeCompare
    (files remotes : List (String × Option RegFile)) :
    ((buildSkills files remotes).map (fun s => s.name)).Pairwise
      (fun a b => localeCompare a b ≤ 0) := by
  rw [List.pairwise_map]
  exact List.sorted_insertionSort nameRel _

/-! ### Ranking lemmas -/

/-- Truncating before filtering picks an in-order leading segment of the
filtered list. -/
theorem filter_take_eq {α : Type} (p : α → Bool) (l : List α) :
    ∀ n : Nat, (l.take n).filter p = (l.filter p).take ((l.take n).filter p).length := by
  induction l with
  | nil => intro n; simp
  | cons a l ih =>
    intro n
    cases n with
    | zero => simp
    | succ n =>
      simp only [List.take_succ_cons, List.filter_cons]
      by_cases h : p a
      · simp only [h, if_true, List.length_cons, List.take_succ_cons]
        exact congrArg (fun t => a :: t) (ih n)
      · simp only [h, Bool.false_eq_true, if_false]
        exact ih n

/-- Stability of `insertionSort` for a sort key: filtering on a class of
elements that tie under `r` recovers them in input order. -/
theorem filter_insertionSort_of_ties {α : Type} (r : α → α → Prop) [DecidableRel r]
    (p : α → Bool) (hp : ∀ a b, p a = true → p b = true → r a b) (l : List α) :
    (l.insertionSort r).filter p = l.filter p := by
  have hpair : (l.filter p).Pairwise r :=
    List.pairwise_of_forall_mem_list
      (fun a ha b hb => hp a b (List.of_mem_filter ha) (List.of_mem_filter hb))
  have hsub : List.Sublist (l.filter p) (l.insertionSort r) :=
    List.sublist_insertionSort hpair (List.filter_sublist l)
  have hidem : (l.filter p).filter p = l.filter p :=
    List.filter_eq_self.mpr (fun a ha => List.of_mem_filter ha)
  have h1 : List.Sublist (l.filter p) ((l.insertionSort r).filter p) := by
    have h2 := List.Sublist.filter p hsub
    rwa [hidem] at h2
  have hlen : ((l.insertionSort r).filter p).length = (l.filter p).length :=
    ((List.perm_insertionSort r l).filter p).length_eq
  exact (List.Sublist.eq_of_length h1 hlen.symm).symm

/-- C6: `searchSkills` keeps only positive-score records, orders results by
score descending with ties in index (insertion) order, and returns the
`limit` highest-scoring records (at most `limit`, exactly `limit` when
enough match); the default limit is 10. -/
theorem search_filters_sorts_truncates (index : IndexFile) (q : String) (limit : Nat) :
    (∀ s ∈ searchSkills index q limit, 0 < s.score)
    ∧ ((searchSkills index q limit).map (fun s => s.score)).Pairwise (fun a b => b ≤ a)
    ∧ (searchSkills index q limit).length
        = min limit (((index.skills.map (fun skill =>
            ScoredSkill.mk skill (scoreSkill skill (tokenize q)))).filter
            (fun s => 0 < s.score)).length)
    ∧ (∀ y ∈ (index.skills.map (fun skill =>
          ScoredSkill.mk skill (scoreSkill skill (tokenize q)))).filter
          (fun s => 0 < s.score),
        y ∉ searchSkills index q limit →
        ∀ x ∈ searchSkills index q limit, y.score ≤ x.score)
    ∧ (∀ k : Nat, (searchSkills index q limit).filter (fun s => decide (s.score = k))
        = (((index.skills.map (fun skill =>
            ScoredSkill.mk skill (scoreSkill skill (tokenize q)))).filter
            (fun s => 0 < s.score)).filter (fun s => decide (s.score = k))).take
            (((searchSkills index q limit).filter (fun s => decide (s.score = k))).length))
    ∧ searchSkillsDefault index q = searchSkills index q 10 := by
  have hdefault : searchSkillsDefault index q = searchSkills index q 10 := rfl
  by_cases hterms : (tokenize q).isEmpty
  · -- empty token set: every score is 0, nothing matches, the result is []
    have hq : tokenize q = [] := List.isEmpty_iff.mp hterms
    have hr : searchSkills index q limit = [] := by
      simp [searchSkills, hterms]
    have hmatched : (index.skills.map (fun skill =>
        ScoredSkill.mk skill (scoreSkill skill (tokenize q)))).filter
        (fun s => 0 < s.score) = [] := by
      rw [List.filter_eq_nil_iff]
      intro s hs
      rcases List.mem_map.mp hs with ⟨skill, _, rfl⟩
      simp [hq, scoreSkill]
    rw [hr, hmatched]
    simp [hdefault]
  · -- non-empty token set
    have hdef : searchSkills index q limit
        = (((index.skills.map (fun skill =>
            ScoredSkill.mk skill (scoreSkill skill (tokenize q)))).filter
            (fun s => 0 < s.score)).insertionSort scoreRel).take limit := by
      simp [searchSkills, hterms]
    rw [hdef]
    set matched := (index.skills.map (fun skill =>
        ScoredSkill.mk skill (scoreSkill skill (tokenize q)))).filter
        (fun s => 0 < s.score) with hmatched
    set sorted := matched.insertionSort scoreRel with hsorted
    have hsortedP : sorted.Sorted scoreRel := List.sorted_insertionSort scoreRel matched
    refine ⟨?_, ?_, ?_, ?_, ?_, hdefault⟩
    · -- only positive scores survive the filter
      intro s hs
      have hs' : s ∈ matched := (List.mem_insertionSort scoreRel).mp
        ((List.take_sublist limit sorted).subset hs)
      have := List.mem_filter.mp hs'
      simpa using this.2
    · -- scores are descending
      have h1 : (sorted.take limit).Pairwise scoreRel :=
        hsortedP.sublist (List.take_sublist limit sorted)
      exact List.pairwise_map.mpr h1
    · -- length is min of limit and the number of matches
      rw [List.length_take]
      congr 1
      exact (List.perm_insertionSort scoreRel matched).length_eq
    · -- everything left out scores no higher than anything kept
      intro y hy hyout x hx
      have hy' : y ∈ sorted := (List.mem_insertionSort scoreRel).mpr hy
      have hy'' : y ∈ sorted.drop limit := by
        rcases (List.mem_append.mp
          ((List.take_append_drop limit sorted).symm ▸ hy')) with h | h
        · exact absurd h hyout
        · exact h
      exact hsortedP.rel_of_mem_take_of_mem_drop hx hy''
    · -- ties keep index order: a leading segment of the matched order
      intro k
      have hstab : sorted.filter (fun s => decide (s.score = k))
          = matched.filter (fun s => decide (s.score = k)) := by
        apply filter_insertionSort_of_ties
        intro a b ha hb
        have ha' := of_decide_eq_true ha
        have hb' := of_decide_eq_true hb
        unfold scoreRel
        omega
      rw [← hstab]
      exact filter_take_eq _ sorted limit

theorem search_filters_sorts_truncates_witness :
    (searchSkills ⟨none, [⟨"docker", none, none, "r"⟩, ⟨"docker-compose", none, none, "r"⟩,
        ⟨"dockerfile", none, none, "r"⟩]⟩ "docker" 2).length
      = min 2 ((([⟨"docker", none, none, "r"⟩, ⟨"docker-compose", none, none, "r"⟩,
          ⟨"dockerfile", none, none, "r"⟩] : List Skill).map (fun skill =>
          ScoredSkill.mk skill (scoreSkill skill (tokenize "docker")))).filter
          (fun s => 0 < s.score)).length
    ∧ (ScoredSkill.mk ⟨"dockerfile", none, none, "r"⟩ 60).score
        ≤ (ScoredSkill.mk ⟨"docker", none, none, "r"⟩ 100).score := by
  have h := search_filters_sorts_truncates
    ⟨none, [⟨"docker", none, none, "r"⟩, ⟨"docker-compose", none, none, "r"⟩,
      ⟨"dockerfile", none, none, "r"⟩]⟩ "docker" 2
  exact ⟨h.2.2.1,
    h.2.2.2.1 (ScoredSkill.mk ⟨"dockerfile", none, none, "r"⟩ 60) (by decide) (by decide)
      (ScoredSkill.mk ⟨"docker", none, none, "r"⟩ 100) (by decide)⟩

end Grimoire
